import Mathlib

/-!
# Verification of the light-esb-node message/dispatch engine

A shallow embedding of `src/light-esb-node.js`.

JavaScript objects are modelled by an explicit heap: a `JSVal` is either a
primitive (modelled as an integer) or a reference (an address) into a `Heap`
mapping addresses to ordered field lists.  The npm `clone` dependency (a deep
structural copy) is modelled by `cloneVal`, which copies an object graph into
fresh addresses; a fuel parameter bounds the traversal depth (`clone` itself
is unbounded; all theorems that depend on the copied value carry a hypothesis
that the traversal succeeds at the given fuel).  Deep ("structural") equality
of two heap values is expressed by comparing their `readTree?` observations.

The dispatch engine (`ESBComponent.prototype.send/next/connect/post`) is
embedded as a fuel-bounded interpreter over a fixed component store; a `World`
carries the heap, the message envelopes, the `setImmediate` task queue and an
event trace recording work invocations, `next` calls, failure deliveries and
result deliveries.  `util.debugComponent`/`util.debugMessage` calls (diagnostic
logging, an external collaborator per the spec) are modelled as no-ops.
-/

namespace LightESB

/-- A JavaScript runtime value flowing through the ESB: a primitive
(modelled as an integer) or a reference to a mutable heap object. -/
inductive JSVal where
  | prim : Int → JSVal
  | ref : Nat → JSVal
deriving DecidableEq, Repr

/-- The ordered own-field list of a JavaScript object. -/
abbrev Fields := List (String × JSVal)

/-- The mutable object heap: an insertion-ordered association list from
addresses to field lists, plus the next fresh address. -/
structure Heap where
  objs : List (Nat × Fields)
  next : Nat
deriving DecidableEq, Repr

/-- First-match association lookup on the raw object list. -/
def lookupObjs : List (Nat × Fields) → Nat → Option Fields
  | [], _ => none
  | (b, fs) :: rest, a => if b = a then some fs else lookupObjs rest a

/-- Dereference an address. -/
def Heap.lookup (h : Heap) (a : Nat) : Option Fields :=
  lookupObjs h.objs a

/-- Replace the field list stored at an address (in-place object mutation). -/
def updateObjs : List (Nat × Fields) → Nat → Fields → List (Nat × Fields)
  | [], _, _ => []
  | (b, g) :: rest, a, fs =>
    if b = a then (a, fs) :: updateObjs rest a fs else (b, g) :: updateObjs rest a fs

/-- Heap after mutating the object at address `a`. -/
def Heap.update (h : Heap) (a : Nat) (fs : Fields) : Heap :=
  ⟨updateObjs h.objs a fs, h.next⟩

theorem lookupObjs_update (a b : Nat) (fs : Fields) :
    ∀ objs, lookupObjs (updateObjs objs a fs) b =
      if b = a then (lookupObjs objs a).map (fun _ => fs) else lookupObjs objs b := by
  intro objs
  induction objs with
  | nil => by_cases hba : b = a <;> simp [updateObjs, lookupObjs, hba]
  | cons hd tl ih =>
    obtain ⟨c, g⟩ := hd
    by_cases hca : c = a <;> by_cases hba : b = a
    · subst hca; subst hba
      simp [updateObjs, lookupObjs]
    · subst hca
      have hcb : ¬ (c = b) := fun hh => hba hh.symm
      simp [updateObjs, lookupObjs, hcb, hba, ih]
    · subst hba
      have hcb : ¬ (c = b) := hca
      simp [updateObjs, lookupObjs, hca, hcb, ih]
    · simp [updateObjs, lookupObjs, hca, hba, ih]

/-- `v` only mentions addresses below `n`. -/
def JSVal.addrOkb (n : Nat) : JSVal → Bool
  | .prim _ => true
  | .ref a => a < n

/-- Every field value mentions only addresses below `n`. -/
def fieldsOkb (n : Nat) (fs : Fields) : Bool :=
  fs.all (fun kv => kv.2.addrOkb n)

/-- Heap well-formedness: every stored address and every stored reference is
below `next`. -/
def Heap.WFb (h : Heap) : Bool :=
  h.objs.all (fun p => decide (p.1 < h.next) && fieldsOkb h.next p.2)

/-- A reference is a primitive or an address in `[lo, hi)`. -/
def JSVal.inRangeb (lo hi : Nat) : JSVal → Bool
  | .prim _ => true
  | .ref a => decide (lo ≤ a) && decide (a < hi)

/-- Reachability of an address from a value through the heap's object graph. -/
inductive Reaches (h : Heap) : JSVal → Nat → Prop where
  | here (a : Nat) : Reaches h (.ref a) a
  | step (a : Nat) (fs : Fields) (k : String) (v : JSVal) (b : Nat) :
      h.lookup a = some fs → (k, v) ∈ fs → Reaches h v b → Reaches h (.ref a) b

/-- The pure tree observation of a heap value (deep value, forgetting
addresses): used to state deep ("structural") equality. -/
inductive JTree where
  | prim : Int → JTree
  | obj : List (String × JTree) → JTree

/-- Read every field value through `g`, keeping names and order. -/
def mapFieldsM (g : JSVal → Option JTree) : Fields → Option (List (String × JTree))
  | [] => some []
  | (k, v) :: rest =>
    (g v).bind (fun t => (mapFieldsM g rest).map (fun ts => (k, t) :: ts))

/-- Observe the deep value of `v` in `h`, spending one unit of fuel per
nesting level; `none` when the fuel is exhausted or a reference dangles. -/
def readTree? : Nat → Heap → JSVal → Option JTree
  | _, _, .prim n => some (.prim n)
  | 0, _, .ref _ => none
  | fuel+1, h, .ref a =>
      (h.lookup a).bind (fun fs => (mapFieldsM (readTree? fuel h) fs).map JTree.obj)

/-- Clone every field value through `g`, threading the heap. -/
def cloneFieldsWith (g : Heap → JSVal → Heap × JSVal) : Heap → Fields → Heap × Fields
  | h, [] => (h, [])
  | h, (k, v) :: rest =>
    let p := g h v
    let q := cloneFieldsWith g p.1 rest
    (q.1, (k, p.2) :: q.2)

/-- The npm `clone` dependency: a deep structural copy of a value.  Objects
are copied into fresh addresses (children first; allocation order is not
observable in JavaScript).  `fuel` bounds the copied depth — a model artifact;
theorems that use the copied value assume `readTree?` succeeds at this fuel. -/
def cloneVal : Nat → Heap → JSVal → Heap × JSVal
  | _, h, .prim n => (h, .prim n)
  | 0, h, .ref _ => (h, .prim 0)
  | fuel+1, h, .ref a =>
    match h.lookup a with
    | none => (h, .prim 0)
    | some fs =>
      let p := cloneFieldsWith (cloneVal fuel) h fs
      (⟨(p.1.next, p.2) :: p.1.objs, p.1.next + 1⟩, .ref p.1.next)

/-- `h'` extends `h`: no existing address is disturbed, fresh addresses only
grow. -/
def Ext (h h' : Heap) : Prop :=
  h.next ≤ h'.next ∧ ∀ a, a < h.next → h'.lookup a = h.lookup a

theorem Ext.refl (h : Heap) : Ext h h := ⟨Nat.le_refl _, fun _ _ => rfl⟩

theorem Ext.trans {h1 h2 h3 : Heap} (e12 : Ext h1 h2) (e23 : Ext h2 h3) : Ext h1 h3 :=
  ⟨Nat.le_trans e12.1 e23.1, fun a ha => by
    rw [e23.2 a (Nat.lt_of_lt_of_le ha e12.1), e12.2 a ha]⟩

/-- Fields of every object stored at an address `≥ n` stay inside `[n, next)`:
the fresh part of the heap is closed. -/
def FreshFrom (n : Nat) (h' : Heap) : Prop :=
  ∀ a fs, h'.lookup a = some fs → n ≤ a → ∀ kv ∈ fs, kv.2.inRangeb n h'.next = true

theorem WFb_iff (h : Heap) :
    h.WFb = true ↔ ∀ p ∈ h.objs, p.1 < h.next ∧ ∀ kv ∈ p.2, kv.2.addrOkb h.next = true := by
  simp [Heap.WFb, fieldsOkb, List.all_eq_true]

theorem lookupObjs_mem {objs : List (Nat × Fields)} {a : Nat} {fs : Fields}
    (hl : lookupObjs objs a = some fs) : (a, fs) ∈ objs := by
  induction objs with
  | nil => simp [lookupObjs] at hl
  | cons hd tl ih =>
    obtain ⟨b, g⟩ := hd
    by_cases hba : b = a
    · subst hba
      simp [lookupObjs] at hl
      subst hl
      exact List.mem_cons_self _ _
    · simp [lookupObjs, hba] at hl
      exact List.mem_cons_of_mem _ (ih hl)

theorem WFb_lookup {h : Heap} (hw : h.WFb = true) {a : Nat} {fs : Fields}
    (hl : h.lookup a = some fs) :
    a < h.next ∧ ∀ kv ∈ fs, kv.2.addrOkb h.next = true := by
  have hmem := lookupObjs_mem hl
  exact (WFb_iff h).1 hw _ hmem

theorem lookup_update (h : Heap) (a b : Nat) (fs : Fields) :
    (h.update a fs).lookup b =
      if b = a then (h.lookup a).map (fun _ => fs) else h.lookup b :=
  lookupObjs_update a b fs h.objs

theorem lookup_update_ne {h : Heap} {a b : Nat} {fs : Fields} (hba : b ≠ a) :
    (h.update a fs).lookup b = h.lookup b := by
  rw [lookup_update, if_neg hba]

theorem update_next (h : Heap) (a : Nat) (fs : Fields) : (h.update a fs).next = h.next := rfl

theorem addrOkb_mono {n n' : Nat} (hn : n ≤ n') {v : JSVal} (hv : v.addrOkb n = true) :
    v.addrOkb n' = true := by
  cases v with
  | prim _ => rfl
  | ref a =>
    simp [JSVal.addrOkb] at hv ⊢
    omega

theorem inRangeb_mono {lo hi lo' hi' : Nat} (hlo : lo' ≤ lo) (hhi : hi ≤ hi') {v : JSVal}
    (hv : v.inRangeb lo hi = true) : v.inRangeb lo' hi' = true := by
  cases v with
  | prim _ => rfl
  | ref a =>
    simp [JSVal.inRangeb] at hv ⊢
    omega

theorem inRangeb_addrOkb {lo hi : Nat} {v : JSVal} (hv : v.inRangeb lo hi = true) :
    v.addrOkb hi = true := by
  cases v with
  | prim _ => rfl
  | ref a =>
    simp [JSVal.inRangeb] at hv
    simpa [JSVal.addrOkb] using hv.2

theorem addrOkb_inRangeb {n : Nat} {v : JSVal} (hv : v.addrOkb n = true) :
    v.inRangeb 0 n = true := by
  cases v with
  | prim _ => rfl
  | ref a => simpa [JSVal.inRangeb, JSVal.addrOkb] using hv

theorem mem_updateObjs {a : Nat} {fs : Fields} {p : Nat × Fields} :
    ∀ {objs : List (Nat × Fields)}, p ∈ updateObjs objs a fs →
      (p = (a, fs) ∧ ∃ g, (a, g) ∈ objs) ∨ p ∈ objs := by
  intro objs hp
  induction objs with
  | nil => simp [updateObjs] at hp
  | cons hd tl ih =>
    obtain ⟨c, g⟩ := hd
    by_cases hca : c = a
    · subst hca
      rw [updateObjs, if_pos rfl] at hp
      rcases List.mem_cons.1 hp with h1 | h2
      · exact Or.inl ⟨h1, g, List.mem_cons_self _ _⟩
      · rcases ih h2 with ⟨h3, g', h4⟩ | h5
        · exact Or.inl ⟨h3, g', List.mem_cons_of_mem _ h4⟩
        · exact Or.inr (List.mem_cons_of_mem _ h5)
    · rw [updateObjs, if_neg hca] at hp
      rcases List.mem_cons.1 hp with h1 | h2
      · exact Or.inr (h1 ▸ List.mem_cons_self _ _)
      · rcases ih h2 with ⟨h3, g', h4⟩ | h5
        · exact Or.inl ⟨h3, g', List.mem_cons_of_mem _ h4⟩
        · exact Or.inr (List.mem_cons_of_mem _ h5)

/-- Mutating an object with bounded new field values preserves heap
well-formedness. -/
theorem WFb_update {h : Heap} (hw : h.WFb = true) {a : Nat} {fs : Fields}
    (hfs : fieldsOkb h.next fs = true) : (h.update a fs).WFb = true := by
  rw [WFb_iff]
  intro p hp
  rw [update_next]
  have hfs' : ∀ kv ∈ fs, kv.2.addrOkb h.next = true := by
    simpa [fieldsOkb, List.all_eq_true] using hfs
  have hw' := (WFb_iff h).1 hw
  rcases mem_updateObjs hp with ⟨h1, g, h2⟩ | h3
  · subst h1
    exact ⟨(hw' _ h2).1, hfs'⟩
  · exact hw' _ h3

theorem mapFieldsM_congr {g g' : JSVal → Option JTree} :
    ∀ {fs : Fields}, (∀ kv ∈ fs, g kv.2 = g' kv.2) → mapFieldsM g fs = mapFieldsM g' fs := by
  intro fs hg
  induction fs with
  | nil => rfl
  | cons kv rest ih =>
    obtain ⟨k, v⟩ := kv
    rw [mapFieldsM, mapFieldsM, hg (k, v) (List.mem_cons_self _ _),
      ih (fun w hw => hg w (List.mem_cons_of_mem _ hw))]

theorem fieldsOkb_forall {n : Nat} {fs : Fields} :
    fieldsOkb n fs = true ↔ ∀ kv ∈ fs, kv.2.addrOkb n = true := by
  simp [fieldsOkb, List.all_eq_true]

/-- Reading is stable under heap extension, for values confined to the old
heap. -/
theorem readTree?_ext {h h' : Heap} (hw : h.WFb = true) (he : Ext h h') :
    ∀ fuel (v : JSVal), v.addrOkb h.next = true → readTree? fuel h' v = readTree? fuel h v := by
  intro fuel
  induction fuel with
  | zero =>
    intro v _
    cases v <;> rfl
  | succ f ih =>
    intro v hv
    cases v with
    | prim n => rfl
    | ref a =>
      have ha : a < h.next := by simpa [JSVal.addrOkb] using hv
      show (h'.lookup a).bind _ = (h.lookup a).bind _
      rw [he.2 a ha]
      cases hl : h.lookup a with
      | none => rfl
      | some fs =>
        have hfok := (WFb_lookup hw hl).2
        simp only [Option.some_bind]
        rw [mapFieldsM_congr (fun kv hkv => ih kv.2 (hfok kv hkv))]

/-- Reading is stable under mutation of an unreachable address. -/
theorem readTree?_update {h : Heap} {q : Nat} {fs0 : Fields} :
    ∀ fuel (v : JSVal), ¬ Reaches h v q →
      readTree? fuel (h.update q fs0) v = readTree? fuel h v := by
  intro fuel
  induction fuel with
  | zero =>
    intro v _
    cases v <;> rfl
  | succ f ih =>
    intro v hnr
    cases v with
    | prim n => rfl
    | ref a =>
      have haq : a ≠ q := by
        intro hh
        exact hnr (hh ▸ Reaches.here a)
      show ((h.update q fs0).lookup a).bind _ = (h.lookup a).bind _
      rw [lookup_update_ne haq]
      cases hl : h.lookup a with
      | none => rfl
      | some fs =>
        simp only [Option.some_bind]
        have hnf : ∀ kv ∈ fs, ¬ Reaches h kv.2 q := by
          intro kv hkv hr
          exact hnr (Reaches.step a fs kv.1 kv.2 q hl hkv hr)
        rw [mapFieldsM_congr (fun kv hkv => ih kv.2 (hnf kv hkv))]

/-- Reachability from an old value stays inside the old heap. -/
theorem reaches_lt {h h' : Heap} (hw : h.WFb = true) (he : Ext h h') :
    ∀ (v : JSVal) (a : Nat), v.addrOkb h.next = true → Reaches h' v a → a < h.next := by
  intro v a hv hr
  induction hr with
  | here b => simpa [JSVal.addrOkb] using hv
  | step b fs k w c hl hkv _ ihr =>
    have hb : b < h.next := by simpa [JSVal.addrOkb] using hv
    rw [he.2 b hb] at hl
    have := (WFb_lookup hw hl).2 (k, w) hkv
    exact ihr this

theorem freshFrom_self {h : Heap} (hw : h.WFb = true) : FreshFrom h.next h := by
  intro a fs hl hge kv _
  have := (WFb_lookup hw hl).1
  omega

theorem freshFrom_trans {h h1 h2 : Heap} (e12 : Ext h h1) (e23 : Ext h1 h2)
    (f1 : FreshFrom h.next h1) (f2 : FreshFrom h1.next h2) : FreshFrom h.next h2 := by
  intro a fs hl hge kv hkv
  by_cases ha : a < h1.next
  · rw [e23.2 a ha] at hl
    exact inRangeb_mono (Nat.le_refl _) e23.1 (f1 a fs hl hge kv hkv)
  · exact inRangeb_mono e12.1 (Nat.le_refl _) (f2 a fs hl (by omega) kv hkv)

theorem ext_cons (h1 : Heap) (fs : Fields) :
    Ext h1 ⟨(h1.next, fs) :: h1.objs, h1.next + 1⟩ := by
  refine ⟨Nat.le_succ _, fun a ha => ?_⟩
  show lookupObjs _ _ = _
  rw [lookupObjs, if_neg (by omega)]
  rfl

/-- The collected guarantees of `cloneFieldsWith g`, for any cloner `g` that
extends the heap, preserves well-formedness, produces a fresh-confined value
and keeps the fresh part closed. -/
theorem cfw_spec {g : Heap → JSVal → Heap × JSVal}
    (hg : ∀ h v, h.WFb = true →
      Ext h (g h v).1 ∧ (g h v).1.WFb = true ∧
      (g h v).2.inRangeb h.next (g h v).1.next = true ∧ FreshFrom h.next (g h v).1) :
    ∀ (fs : Fields) (h : Heap), h.WFb = true →
      Ext h (cloneFieldsWith g h fs).1 ∧ (cloneFieldsWith g h fs).1.WFb = true ∧
      (∀ kv ∈ (cloneFieldsWith g h fs).2,
        kv.2.inRangeb h.next (cloneFieldsWith g h fs).1.next = true) ∧
      FreshFrom h.next (cloneFieldsWith g h fs).1 := by
  intro fs
  induction fs with
  | nil =>
    intro h hw
    exact ⟨Ext.refl h, hw, by simp [cloneFieldsWith], freshFrom_self hw⟩
  | cons kv rest ih =>
    intro h hw
    obtain ⟨k, v⟩ := kv
    obtain ⟨e1, w1, r1, f1⟩ := hg h v hw
    obtain ⟨e2, w2, r2, f2⟩ := ih (g h v).1 w1
    simp only [cloneFieldsWith]
    refine ⟨e1.trans e2, w2, ?_, freshFrom_trans e1 e2 f1 f2⟩
    intro kv' hkv'
    rcases List.mem_cons.1 hkv' with h1 | h2
    · subst h1
      exact inRangeb_mono (Nat.le_refl _) e2.1 r1
    · exact inRangeb_mono e1.1 (Nat.le_refl _) (r2 kv' h2)

/-- The collected guarantees of the deep copy `cloneVal`: it extends the
heap, preserves well-formedness, the copied value lives entirely in the
fresh address range, and fresh objects reference only fresh objects. -/
theorem clone_spec : ∀ (fuel : Nat) (h : Heap) (v : JSVal), h.WFb = true →
    Ext h (cloneVal fuel h v).1 ∧ (cloneVal fuel h v).1.WFb = true ∧
    (cloneVal fuel h v).2.inRangeb h.next (cloneVal fuel h v).1.next = true ∧
    FreshFrom h.next (cloneVal fuel h v).1 := by
  intro fuel
  induction fuel with
  | zero =>
    intro h v hw
    cases v with
    | prim n => exact ⟨Ext.refl h, hw, rfl, freshFrom_self hw⟩
    | ref a => exact ⟨Ext.refl h, hw, rfl, freshFrom_self hw⟩
  | succ f ih =>
    intro h v hw
    cases v with
    | prim n => exact ⟨Ext.refl h, hw, rfl, freshFrom_self hw⟩
    | ref a =>
      cases hl : h.lookup a with
      | none =>
        simp only [cloneVal, hl]
        exact ⟨Ext.refl h, hw, rfl, freshFrom_self hw⟩
      | some fs =>
        obtain ⟨e1, w1, r1, f1⟩ := cfw_spec ih fs h hw
        simp only [cloneVal, hl]
        set h1 := (cloneFieldsWith (cloneVal f) h fs).1 with hh1
        set fs' := (cloneFieldsWith (cloneVal f) h fs).2 with hfs'
        have hec : Ext h1 ⟨(h1.next, fs') :: h1.objs, h1.next + 1⟩ := ext_cons h1 fs'
        have hnx : (⟨(h1.next, fs') :: h1.objs, h1.next + 1⟩ : Heap).next = h1.next + 1 := rfl
        refine ⟨e1.trans hec, ?_, ?_, ?_⟩
        · rw [WFb_iff]
          intro p hp
          rw [hnx]
          rcases List.mem_cons.1 hp with hph | hpt
          · subst hph
            refine ⟨by omega, fun kv hkv => ?_⟩
            exact addrOkb_mono (Nat.le_succ _) (inRangeb_addrOkb (r1 kv hkv))
          · have := (WFb_iff h1).1 w1 p hpt
            exact ⟨by omega, fun kv hkv => addrOkb_mono (Nat.le_succ _) (this.2 kv hkv)⟩
        · simp only [JSVal.inRangeb, hnx]
          have := e1.1
          simp only [Bool.and_eq_true, decide_eq_true_eq]
          omega
        · intro a' fs'' hl' hge kv hkv
          by_cases ha' : h1.next = a'
          · subst ha'
            have : fs'' = fs' := by
              change lookupObjs _ _ = _ at hl'
              rw [lookupObjs, if_pos rfl] at hl'
              exact (Option.some_inj.1 hl').symm
            subst this
            exact inRangeb_mono (Nat.le_refl _) (Nat.le_succ _) (r1 kv hkv)
          · have hl1 : h1.lookup a' = some fs'' := by
              change lookupObjs _ _ = _ at hl'
              rw [lookupObjs, if_neg ha'] at hl'
              exact hl'
            exact inRangeb_mono (Nat.le_refl _) (Nat.le_succ _) (f1 a' fs'' hl1 hge kv hkv)

theorem fieldsOkb_mono {n n' : Nat} (hn : n ≤ n') {fs : Fields}
    (hfs : fieldsOkb n fs = true) : fieldsOkb n' fs = true := by
  rw [fieldsOkb_forall] at hfs ⊢
  exact fun kv hkv => addrOkb_mono hn (hfs kv hkv)

/-- The deep copy reads back equal to its source: in any extension of the
post-clone heap, the copy observes to the very tree the source observed to
(provided the source observation succeeds at this fuel). -/
theorem clone_read : ∀ (fuel : Nat) (h : Heap) (v : JSVal) (h'' : Heap), h.WFb = true →
    Ext (cloneVal fuel h v).1 h'' → (readTree? fuel h v).isSome = true →
    readTree? fuel h'' (cloneVal fuel h v).2 = readTree? fuel h v := by
  intro fuel
  induction fuel with
  | zero =>
    intro h v h'' _ _ hr
    cases v with
    | prim n => rfl
    | ref a => simp [readTree?] at hr
  | succ f ih =>
    intro h v h'' hw he hr
    cases v with
    | prim n => rfl
    | ref a =>
      cases hl : h.lookup a with
      | none =>
        rw [readTree?, hl] at hr
        simp at hr
      | some fs =>
        have hfok : fieldsOkb h.next fs = true :=
          fieldsOkb_forall.2 (WFb_lookup hw hl).2
        rw [readTree?, hl] at hr
        simp only [Option.some_bind, Option.isSome_map'] at hr
        simp only [cloneVal, hl] at he ⊢
        set h1 := (cloneFieldsWith (cloneVal f) h fs).1 with hh1
        set fs' := (cloneFieldsWith (cloneVal f) h fs).2 with hfs2
        have hlk : h''.lookup h1.next = some fs' := by
          have h2 : (⟨(h1.next, fs') :: h1.objs, h1.next + 1⟩ : Heap).lookup h1.next
              = some fs' := by
            change lookupObjs _ _ = _
            rw [lookupObjs, if_pos rfl]
          rw [← h2]
          exact he.2 h1.next (Nat.lt_succ_self _)
        rw [readTree?, hlk, readTree?, hl]
        simp only [Option.some_bind]
        have inner : ∀ (gs : Fields) (h0 : Heap), h0.WFb = true →
            fieldsOkb h0.next gs = true →
            ∀ h2, Ext (cloneFieldsWith (cloneVal f) h0 gs).1 h2 →
            (mapFieldsM (readTree? f h0) gs).isSome = true →
            mapFieldsM (readTree? f h2) (cloneFieldsWith (cloneVal f) h0 gs).2 =
              mapFieldsM (readTree? f h0) gs := by
          intro gs
          induction gs with
          | nil =>
            intro h0 _ _ h2 _ _
            rfl
          | cons kv rest ihg =>
            intro h0 hw0 hfok0 h2 he2 hsome
            obtain ⟨k, v0⟩ := kv
            have hvok : v0.addrOkb h0.next = true :=
              fieldsOkb_forall.1 hfok0 (k, v0) (List.mem_cons_self _ _)
            have hrok : fieldsOkb h0.next rest = true := by
              rw [fieldsOkb_forall] at hfok0 ⊢
              exact fun w hwm => hfok0 w (List.mem_cons_of_mem _ hwm)
            obtain ⟨eA, wA, _, _⟩ := clone_spec f h0 v0 hw0
            obtain ⟨eR, _, _, _⟩ := cfw_spec (clone_spec f) rest (cloneVal f h0 v0).1 wA
            rw [mapFieldsM] at hsome
            cases hv : readTree? f h0 v0 with
            | none => rw [hv] at hsome; simp at hsome
            | some t0 =>
              rw [hv] at hsome
              simp only [Option.some_bind, Option.isSome_map'] at hsome
              have hcfw : cloneFieldsWith (cloneVal f) h0 ((k, v0) :: rest) =
                  ((cloneFieldsWith (cloneVal f) (cloneVal f h0 v0).1 rest).1,
                    (k, (cloneVal f h0 v0).2) ::
                      (cloneFieldsWith (cloneVal f) (cloneVal f h0 v0).1 rest).2) := rfl
              rw [hcfw] at he2 ⊢
              have hhead : readTree? f h2 (cloneVal f h0 v0).2 = some t0 := by
                rw [ih h0 v0 h2 hw0 (eR.trans he2) (by rw [hv]; rfl), hv]
              have hrest0 : mapFieldsM (readTree? f (cloneVal f h0 v0).1) rest =
                  mapFieldsM (readTree? f h0) rest :=
                mapFieldsM_congr (fun w hwm =>
                  readTree?_ext hw0 eA f w.2 (fieldsOkb_forall.1 hrok w hwm))
              have hrest : mapFieldsM (readTree? f h2)
                  (cloneFieldsWith (cloneVal f) (cloneVal f h0 v0).1 rest).2 =
                  mapFieldsM (readTree? f h0) rest := by
                rw [ihg (cloneVal f h0 v0).1 wA (fieldsOkb_mono eA.1 hrok) h2 he2
                  (by rw [hrest0]; exact hsome), hrest0]
              rw [mapFieldsM, hhead, mapFieldsM, hv, hrest]
        rw [inner fs h hw hfok h'' ((ext_cons h1 fs').trans he) hr]

/-- Reachability from a fresh value stays inside the fresh part of the heap. -/
theorem reaches_ge {n : Nat} {h' : Heap} (hf : FreshFrom n h') :
    ∀ (v : JSVal) (a : Nat), (∀ b, v = .ref b → n ≤ b) → Reaches h' v a → n ≤ a := by
  intro v a hv hr
  induction hr with
  | here b => exact hv b rfl
  | step b fs k w c hl hkv _ ihr =>
    have hb : n ≤ b := hv b rfl
    have hw := hf b fs hl hb (k, w) hkv
    apply ihr
    intro b' hb'
    subst hb'
    simp [JSVal.inRangeb] at hw
    exact hw.1

/-! ## JavaScript object field operations -/

/-- First-match field lookup: JS property read `o[k]` (`none` = `undefined`). -/
def lookupField : Fields → String → Option JSVal
  | [], _ => none
  | (k0, v) :: rest, k => if k0 = k then some v else lookupField rest k

/-- Does the object have an own property `k`? -/
def hasField : Fields → String → Bool
  | [], _ => false
  | (k0, _) :: rest, k => k0 = k || hasField rest k

/-- Overwrite an existing property in place (keeping its position). -/
def setFieldEx : Fields → String → JSVal → Fields
  | [], _, _ => []
  | (k0, v0) :: rest, k, v =>
    if k0 = k then (k, v) :: setFieldEx rest k v else (k0, v0) :: setFieldEx rest k v

/-- JS property write `o[k] = v`: overwrite in place when present, else append
(JS own-property insertion order). -/
def setField (fs : Fields) (k : String) (v : JSVal) : Fields :=
  if hasField fs k then setFieldEx fs k v else fs ++ [(k, v)]

/-- `Object.assign(target, source)` on field lists: source fields are written
into the target one by one, in source order. -/
def assignFields (target src : Fields) : Fields :=
  src.foldl (fun acc kv => setField acc kv.1 kv.2) target

/-- First-some choice, as JS key precedence. -/
def orElseO (a b : Option JSVal) : Option JSVal :=
  match a with
  | some v => some v
  | none => b

theorem lookupField_setFieldEx (k k' : String) (v : JSVal) :
    ∀ fs, lookupField (setFieldEx fs k v) k' =
      if k' = k then (if hasField fs k then some v else none) else lookupField fs k' := by
  intro fs
  induction fs with
  | nil => by_cases hk : k' = k <;> simp [setFieldEx, lookupField, hasField, hk]
  | cons kv rest ih =>
    obtain ⟨k0, v0⟩ := kv
    by_cases h0 : k0 = k <;> by_cases hk : k' = k
    · subst h0; subst hk
      simp [setFieldEx, lookupField, hasField]
    · subst h0
      have : ¬ (k0 = k') := fun hh => hk hh.symm
      simp [setFieldEx, lookupField, hasField, hk, this, ih]
    · subst hk
      have : ¬ (k0 = k') := h0
      simp [setFieldEx, lookupField, hasField, h0, this, ih]
    · by_cases h0' : k0 = k'
      · subst h0'
        simp [setFieldEx, lookupField, h0, hk]
      · simp [setFieldEx, lookupField, h0, h0', hk, ih]

theorem lookupField_append (fs gs : Fields) (k : String) :
    lookupField (fs ++ gs) k = orElseO (lookupField fs k) (lookupField gs k) := by
  induction fs with
  | nil => simp [lookupField, orElseO]
  | cons kv rest ih =>
    obtain ⟨k0, v0⟩ := kv
    by_cases h0 : k0 = k <;> simp [lookupField, h0, orElseO, ih]

theorem hasField_false_lookup {fs : Fields} {k : String} (h : hasField fs k = false) :
    lookupField fs k = none := by
  induction fs with
  | nil => rfl
  | cons kv rest ih =>
    obtain ⟨k0, v0⟩ := kv
    simp [hasField] at h
    simp [lookupField, h.1, ih h.2]

/-- JS property write, observed through reads. -/
theorem lookupField_setField (fs : Fields) (k k' : String) (v : JSVal) :
    lookupField (setField fs k v) k' = if k' = k then some v else lookupField fs k' := by
  rw [setField]
  cases hhas : hasField fs k with
  | true =>
    rw [if_pos rfl, lookupField_setFieldEx, hhas]
    by_cases hk : k' = k <;> simp [hk]
  | false =>
    rw [if_neg (by simp [hhas]), lookupField_append]
    by_cases hk : k' = k
    · subst hk
      rw [hasField_false_lookup hhas]
      simp [orElseO, lookupField]
    · rw [if_neg hk]
      have hkk : ¬ (k = k') := fun hh => hk hh.symm
      simp only [lookupField, if_neg hkk]
      cases lookupField fs k' <;> simp [orElseO]

theorem not_mem_keys_lookup {fs : Fields} {k : String}
    (h : k ∉ fs.map Prod.fst) : lookupField fs k = none := by
  induction fs with
  | nil => rfl
  | cons kv rest ih =>
    obtain ⟨k0, v0⟩ := kv
    rw [List.map_cons] at h
    simp only [List.mem_cons, not_or] at h
    have h1 : ¬ (k0 = k) := fun hh => h.1 hh.symm
    simp [lookupField, h1, ih h.2]

/-- `Object.assign` key semantics: the source takes precedence on collision,
target fields survive otherwise (for a source without duplicate keys —
JavaScript objects never have duplicate keys). -/
theorem lookupField_assignFields {src : Fields} (hnd : (src.map Prod.fst).Nodup) :
    ∀ (target : Fields) (k : String),
      lookupField (assignFields target src) k =
        orElseO (lookupField src k) (lookupField target k) := by
  induction src with
  | nil =>
    intro target k
    simp [assignFields, lookupField, orElseO]
  | cons kv rest ih =>
    intro target k
    obtain ⟨k0, v0⟩ := kv
    simp only [List.map_cons, List.nodup_cons] at hnd
    have hstep : assignFields target ((k0, v0) :: rest) =
        assignFields (setField target k0 v0) rest := rfl
    rw [hstep, ih hnd.2 (setField target k0 v0) k, lookupField_setField]
    by_cases hk : k = k0
    · subst hk
      rw [not_mem_keys_lookup hnd.1]
      simp [lookupField, orElseO]
    · have : ¬ (k0 = k) := fun hh => hk hh.symm
      simp [lookupField, this, if_neg hk]

/-! ## The message envelope and the dispatch world -/

/-- The name used when `connect`/`next` are called without a channel name. -/
def defaultChannel : String := "default"

/-- Errors are opaque JavaScript values; an opaque code suffices for the
engine, which never inspects the thrown value. -/
abbrev JSError := Nat

/-- The `TypeError` raised when JavaScript invokes `undefined` (e.g. a missing
`callback`) or dereferences a missing entity. -/
def tyErr : JSError := 0

/-- Model artifact only: returned by the interpreter when its fuel runs out
(the JS engine has no such bound). -/
def fuelErr : JSError := 1

/-- `message.context.caller` as assembled by the `ESBMessage` constructor. -/
structure MsgCaller where
  user : String
  system : String
  correlationId : String
deriving DecidableEq, Repr

/-- `message.context`: stamped once at construction (the uuid generator and
clock are modelled as inputs). -/
structure MsgContext where
  createdTimestamp : Nat
  correlationId : String
  caller : MsgCaller
deriving DecidableEq, Repr

/-- The `ESBMessage` envelope. -/
structure ESBMessage where
  payload : JSVal
  context : MsgContext
  originalPayload : JSVal
  vars : Fields
deriving DecidableEq, Repr

/-- `createMessage` / the `ESBMessage` constructor: stamps the context and
takes a deep snapshot of the payload into `originalPayload`; `vars` starts
empty. -/
def createMessage (fuel : Nat) (h : Heap) (payload : JSVal)
    (callerUser callerSystem callerCorrelationId : String) (now : Nat) (uuid : String) :
    Heap × ESBMessage :=
  let c := cloneVal fuel h payload
  (c.1,
    { payload := payload,
      context :=
        { createdTimestamp := now, correlationId := uuid,
          caller :=
            { user := callerUser, system := callerSystem,
              correlationId := callerCorrelationId } },
      originalPayload := c.2,
      vars := [] })

/-- Observable events of a traversal (most recent first). -/
inductive Event where
  | workStarted (c m : Nat)
  | nextCalled (c : Nat) (ch : String) (m : Nat)
  | failureDelivered (c m : Nat) (e : JSError)
  | resultDelivered (c m : Nat)
deriving DecidableEq, Repr

/-- The dynamic state of a traversal: the heap, the message envelopes
(shared by reference: work mutates them through their index), the
`setImmediate` queue, and the event trace (most recent event first). -/
structure World where
  heap : Heap
  msgs : List ESBMessage
  queue : List (Nat × Nat)
  trace : List Event
deriving DecidableEq, Repr

def World.addEvent (w : World) (e : Event) : World :=
  { w with trace := e :: w.trace }

/-- The outcome of running a piece of JS code: the final world and, when the
code threw, the escaped error. -/
abbrev Outcome := World × Option JSError

/-- The capability of dispatching a message into a component (the shape of
`target.send`). -/
abbrev SendFn := World → Nat → Nat → Outcome

/-- The capability a work function gets for `this.next` (channel name
optional, as in the source's `arguments.length` check). -/
abbrev NextFn := World → Option String → Nat → Outcome

/-- A work function `fn(context, message)`: it receives its component's
`next` capability (the binding of `this`), the component's `context`
property, the message reference and the world. -/
abbrev WorkFn := NextFn → Option Unit → Nat → World → Outcome

/-- The behaviour a component was constructed with.  `custom` carries an
arbitrary work function (the base `ESBComponent` constructor's `fn`); the
named kinds are the concrete node constructors of the source relevant here. -/
inductive CompKind where
  | custom : WorkFn → CompKind
  | varSet : String → CompKind
  | varGet : String → CompKind
  | combine : String → CompKind
  | result : CompKind

/-- A processing node.  `context` models the `this.context` property — no
constructor in the source ever assigns it, so reading it yields `undefined`
(`none`).  `hasCallback` records whether a `callback` (failure sink /
completion capability) was passed to the constructor.  The diagnostic uuid
`id` is never read by the engine and is not modelled. -/
structure Component where
  kind : CompKind
  context : Option Unit
  channels : List (String × List Nat)
  hasCallback : Bool

/-- First-match channel lookup (JS property read on `this.channels`). -/
def getChannel : List (String × List Nat) → String → Option (List Nat)
  | [], _ => none
  | (n, ts) :: rest, ch => if n = ch then some ts else getChannel rest ch

/-- In-place overwrite of an existing channel's target list. -/
def setChannel : List (String × List Nat) → String → List Nat → List (String × List Nat)
  | [], _, _ => []
  | (n, ts0) :: rest, ch, ts =>
    if n = ch then (ch, ts) :: setChannel rest ch ts else (n, ts0) :: setChannel rest ch ts

/-- `ESBComponent.prototype.connect(channel, component)`: a one-argument call
resolves to the default channel; the target list is created if absent and the
target is appended (push — no deduplication). -/
def Component.connect (comp : Component) (name : Option String) (target : Nat) : Component :=
  let ch := name.getD defaultChannel
  match getChannel comp.channels ch with
  | none => { comp with channels := comp.channels ++ [(ch, [target])] }
  | some ts => { comp with channels := setChannel comp.channels ch (ts ++ [target]) }

/-- JS truthiness of the modelled values: of the integer primitives exactly
`0` is falsy; object references are always truthy.  An absent property
(`undefined`, also falsy) is the `none` case of the enclosing lookup. -/
def truthy : JSVal → Bool
  | .prim n => n != 0
  | .ref _ => true

/-- The body of `ESBVarSetComponent`'s work:
`message.vars[name] = clone(message.payload)`.  A dangling message reference
would be a thrown `TypeError` in JS (property access on `undefined`). -/
def varSetStep (fuel : Nat) (w : World) (name : String) (m : Nat) : Outcome :=
  match w.msgs[m]? with
  | none => (w, some tyErr)
  | some msg =>
    let c := cloneVal fuel w.heap msg.payload
    ({ w with
        heap := c.1,
        msgs := w.msgs.set m { msg with vars := setField msg.vars name c.2 } }, none)

/-- The body of `ESBVarGetComponent`'s work:
`if (message.vars[name]) { message.payload = clone(message.vars[name]) }` —
note the truthiness test, not an existence test. -/
def varGetStep (fuel : Nat) (w : World) (name : String) (m : Nat) : Outcome :=
  match w.msgs[m]? with
  | none => (w, some tyErr)
  | some msg =>
    match lookupField msg.vars name with
    | some v =>
      if truthy v then
        let c := cloneVal fuel w.heap v
        ({ w with
            heap := c.1,
            msgs := w.msgs.set m { msg with payload := c.2 } }, none)
      else (w, none)
    | none => (w, none)

/-- The own enumerable fields `Object.assign` copies from a source value:
none for a primitive source. -/
def srcFields (h : Heap) : JSVal → Fields
  | .prim _ => []
  | .ref a => (h.lookup a).getD []

/-- The body of `ESBCombineComponent`'s work: `partialPayload` is
`message.vars[name]` when truthy (else `{}`), then
`Object.assign(message.payload, partialPayload)`.  When the payload is a
primitive, `Object.assign` operates on a discarded wrapper, so nothing
changes (our primitives are integers, never `null`/`undefined`). -/
def combineStep (w : World) (name : String) (m : Nat) : Outcome :=
  match w.msgs[m]? with
  | none => (w, some tyErr)
  | some msg =>
    let pf : Fields :=
      match lookupField msg.vars name with
      | some v => if truthy v then srcFields w.heap v else []
      | none => []
    match msg.payload with
    | .prim _ => (w, none)
    | .ref p =>
      match w.heap.lookup p with
      | none => (w, none)
      | some tf => ({ w with heap := w.heap.update p (assignFields tf pf) }, none)

/-- `channels[name].forEach(ch => ch.send(message))`: each target is
dispatched in registration order with the same message reference; an error
escaping a target's `send` aborts the iteration and propagates. -/
def sendSeqWith (sendF : SendFn) : World → List Nat → Nat → Outcome
  | w, [], _ => (w, none)
  | w, t :: ts, m =>
    match sendF w t m with
    | (w', none) => sendSeqWith sendF w' ts m
    | r => r

/-- `ESBComponent.prototype.next(name, message)`: a one-argument call
resolves to the default channel; a channel with no registered list is a
silent no-op.  (The `nextCalled` trace event is observational
instrumentation.) -/
def nextWith (comps : List Component) (sendF : SendFn) (w : World) (c : Nat)
    (name : Option String) (m : Nat) : Outcome :=
  let ch := name.getD defaultChannel
  let w1 := w.addEvent (.nextCalled c ch m)
  match comps[c]? with
  | none => (w1, some tyErr)
  | some comp =>
    match getChannel comp.channels ch with
    | none => (w1, none)
    | some ts => sendSeqWith sendF w1 ts m

/-- Sequence a work-body with the trailing `self.next(message)` call of the
concrete node kinds; an error skips the `next`. -/
def seqNext (nextF : NextFn) (m : Nat) : Outcome → Outcome
  | (w, none) => nextF w none m
  | r => r

/-- Run a component's work function `fn(this.context, message)`.  The custom
kind applies the stored function to the self-bound `next` capability and the
component's `context` property; the concrete kinds run their body and then
call `this.next(message)` (the `result` kind instead invokes
`this.callback(null, message)`, a `TypeError` when absent). -/
def runFnWith (comps : List Component) (sendF : SendFn) (fuel : Nat) (comp : Component)
    (c m : Nat) (w : World) : Outcome :=
  let nextF : NextFn := fun w' name m' => nextWith comps sendF w' c name m'
  match comp.kind with
  | .custom f => f nextF comp.context m w
  | .varSet n => seqNext nextF m (varSetStep fuel w n m)
  | .varGet n => seqNext nextF m (varGetStep fuel w n m)
  | .combine n => seqNext nextF m (combineStep w n m)
  | .result =>
    if comp.hasCallback then (w.addEvent (.resultDelivered c m), none)
    else (w, some tyErr)

/-- `ESBComponent.prototype.send(message)`: runs `this.fn(this.context,
message)` inside try/catch.  A thrown error is converted to
`{component: this, message, cause}` and delivered to `this.callback`; when
`this.callback` is `undefined`, invoking it throws a `TypeError` which
escapes `send`.  Fuel bounds the recursion through the component graph
(cycles are permitted by the engine). -/
def sendRun (comps : List Component) : Nat → World → Nat → Nat → Outcome
  | 0, w, _, _ => (w, some fuelErr)
  | fuel+1, w, c, m =>
    match comps[c]? with
    | none => (w, some tyErr)
    | some comp =>
      let w1 := w.addEvent (.workStarted c m)
      match runFnWith comps (fun w' c' m' => sendRun comps fuel w' c' m') fuel comp c m w1 with
      | (w2, none) => (w2, none)
      | (w2, some e) =>
        if comp.hasCallback then (w2.addEvent (.failureDelivered c m e), none)
        else (w2, some tyErr)

/-- `this.next` as invoked during a `send` at the given fuel. -/
def nextRun (comps : List Component) (fuel : Nat) (w : World) (c : Nat)
    (name : Option String) (m : Nat) : Outcome :=
  nextWith comps (fun w' c' m' => sendRun comps fuel w' c' m') w c name m

/-- `ESBComponent.prototype.post(message)`:
`setImmediate(function(){ self.send(message) })` — enqueue the dispatch on
the event loop and return to the caller at once. -/
def postRun (w : World) (c m : Nat) : World :=
  { w with queue := w.queue ++ [(c, m)] }

/-- One turn of the host event loop: run the oldest queued deferred
dispatch. -/
def runTick (comps : List Component) (fuel : Nat) (w : World) : Outcome :=
  match w.queue with
  | [] => (w, none)
  | (c, m) :: rest => sendRun comps fuel { w with queue := rest } c m

/-! ## Component constructors (`createXxxComponent`) -/

/-- The base `ESBComponent(fn, callback)` constructor: stores the work
function and the callback; it never assigns `this.context`. -/
def ESBComponent.new (fn : WorkFn) (hasCallback : Bool) : Component :=
  { kind := .custom fn, context := none, channels := [], hasCallback := hasCallback }

/-- `ESBVarSetComponent(variableName)`: built on the base constructor with no
callback. -/
def ESBVarSetComponent.new (variableName : String) : Component :=
  { kind := .varSet variableName, context := none, channels := [], hasCallback := false }

/-- `ESBVarGetComponent(variableName)`: built on the base constructor with no
callback. -/
def ESBVarGetComponent.new (variableName : String) : Component :=
  { kind := .varGet variableName, context := none, channels := [], hasCallback := false }

/-- `ESBCombineComponent(variableName)`: built on the base constructor with
no callback. -/
def ESBCombineComponent.new (variableName : String) : Component :=
  { kind := .combine variableName, context := none, channels := [], hasCallback := false }

/-- `ESBResultComponent(callback)`: the terminal node; whether a completion
capability was supplied is recorded in `hasCallback`. -/
def ESBResultComponent.new (hasCallback : Bool) : Component :=
  { kind := .result, context := none, channels := [], hasCallback := hasCallback }

/-- `String.prototype.toUpperCase`, for the ASCII letters that appear in the
configuration words compared by the source. -/
def toUpper (s : String) : String := String.mk (s.data.map Char.toUpper)

/-- The word the `createVarComponent` factory compares against. -/
def setWord : String := "SET"

/-- `createVarComponent(variableName, operation)`: a Variable-set component
exactly when `operation.toUpperCase() == 'SET'`; every other operation
string yields a Variable-get component (no validation). -/
def createVarComponent (variableName operation : String) : Component :=
  if toUpper operation = setWord then ESBVarSetComponent.new variableName
  else ESBVarGetComponent.new variableName

/-- `createCombineComponent(variableName)`. -/
def createCombineComponent (variableName : String) : Component :=
  ESBCombineComponent.new variableName

/-- `createResultComponent(callback)`. -/
def createResultComponent (hasCallback : Bool) : Component :=
  ESBResultComponent.new hasCallback

/-! ## Claim theorems -/

/-- C9: when `send` invokes a node's work function, the `context` argument is
always `undefined`: every component constructor of the module leaves
`this.context` unassigned (`none`), and `runFnWith` applies the stored work
function to exactly `this.context` (the node itself is bound only through the
`next` capability). -/
theorem context_always_undefined :
    (∀ (fn : WorkFn) (hasCb : Bool), (ESBComponent.new fn hasCb).context = none) ∧
    (∀ n, (ESBVarSetComponent.new n).context = none) ∧
    (∀ n, (ESBVarGetComponent.new n).context = none) ∧
    (∀ n, (ESBCombineComponent.new n).context = none) ∧
    (∀ b, (ESBResultComponent.new b).context = none) ∧
    (∀ n op, (createVarComponent n op).context = none) ∧
    (∀ comps (sendF : SendFn) fuel (f : WorkFn) hasCb c m w,
      runFnWith comps sendF fuel (ESBComponent.new f hasCb) c m w =
        f (fun w' name m' => nextWith comps sendF w' c name m') none m w) := by
  refine ⟨fun _ _ => rfl, fun _ => rfl, fun _ => rfl, fun _ => rfl, fun _ => rfl, ?_,
    fun _ _ _ _ _ _ _ _ => rfl⟩
  intro n op
  unfold createVarComponent
  by_cases h : toUpper op = setWord <;>
    simp [h, ESBVarSetComponent.new, ESBVarGetComponent.new]

/-- C10: `createVarComponent` yields a Variable-set component exactly when
the operation string equals `"SET"` case-insensitively
(`operation.toUpperCase() == 'SET'`); every other string — misspelled or not —
silently yields a Variable-get component, and the factory always returns one
of the two (it never raises a configuration error). -/
theorem createVarComponent_set_iff (variableName operation : String) :
    ((createVarComponent variableName operation).kind = .varSet variableName ↔
      toUpper operation = toUpper setWord) ∧
    (toUpper operation ≠ toUpper setWord →
      (createVarComponent variableName operation).kind = .varGet variableName) ∧
    ((createVarComponent variableName operation).kind = .varSet variableName ∨
      (createVarComponent variableName operation).kind = .varGet variableName) := by
  have hset : toUpper setWord = setWord := by decide
  rw [hset]
  unfold createVarComponent
  by_cases h : toUpper operation = setWord
  · rw [if_pos h]
    exact ⟨⟨fun _ => h, fun _ => rfl⟩, fun hn => absurd h hn, Or.inl rfl⟩
  · rw [if_neg h]
    refine ⟨⟨fun hk => ?_, fun hh => absurd hh h⟩, fun _ => rfl, Or.inr rfl⟩
    exact absurd hk (by simp [ESBVarGetComponent.new])

theorem createVarComponent_set_iff_witness :
    (createVarComponent ("v") ("sEt")).kind = .varSet ("v") ∧
    (createVarComponent ("v") ("GETT")).kind = .varGet ("v") :=
  ⟨(createVarComponent_set_iff ("v") ("sEt")).1.mpr (by decide),
    (createVarComponent_set_iff ("v") ("GETT")).2.1 (by decide)⟩

/-- C8: `post` is `send` deferred by one event-loop turn: it only enqueues
the dispatch (heap, messages and trace — any marker `work` could set — are
untouched when `post` returns), and running the queued task on the next tick
performs exactly `send` on the same component and message. -/
theorem post_defers_send (comps : List Component) (fuel : Nat) (w : World) (c m : Nat)
    (hq : w.queue = []) :
    (postRun w c m).heap = w.heap ∧ (postRun w c m).msgs = w.msgs ∧
    (postRun w c m).trace = w.trace ∧
    (postRun w c m).queue = w.queue ++ [(c, m)] ∧
    runTick comps fuel (postRun w c m) = sendRun comps fuel w c m := by
  cases w
  subst hq
  exact ⟨rfl, rfl, rfl, rfl, rfl⟩

theorem post_defers_send_witness :
    runTick [] 1 (postRun ⟨⟨[], 0⟩, [], [], []⟩ 0 0) = sendRun [] 1 ⟨⟨[], 0⟩, [], [], []⟩ 0 0 :=
  (post_defers_send [] 1 ⟨⟨[], 0⟩, [], [], []⟩ 0 0 rfl).2.2.2.2

/-- C1: an error raised synchronously by a node's work function during `send`
is caught at that node and converted into `{component: this, message, cause}`;
for a node with a failure sink the record is delivered to it exactly once
(the final world is the work function's world with precisely one
`failureDelivered` event appended — nothing else happens afterwards, in
particular no `next` forwarding), and `send` returns normally (the error is
not re-thrown: the outcome's error component is `none`). -/
theorem send_work_failure_captured (comps : List Component) (fuel : Nat) (w : World)
    (c m : Nat) (comp : Component) (f : WorkFn) (e : JSError) (w' : World)
    (hc : comps[c]? = some comp) (hk : comp.kind = .custom f) (hcb : comp.hasCallback = true)
    (hf : f (fun w2 name m2 => nextRun comps fuel w2 c name m2) comp.context m
        (w.addEvent (.workStarted c m)) = (w', some e)) :
    sendRun comps (fuel+1) w c m = (w'.addEvent (.failureDelivered c m e), none) := by
  have hf' : f (fun w2 name m2 =>
      nextWith comps (fun w3 c' m' => sendRun comps fuel w3 c' m') w2 c name m2) comp.context m
      (w.addEvent (.workStarted c m)) = (w', some e) := hf
  rw [sendRun, hc]
  simp only [runFnWith, hk, hf', hcb, if_pos]

def c1Work : WorkFn := fun _ _ _ w => (w, some 7)

def c1Comps : List Component := [ESBComponent.new c1Work true]

def c1World : World := ⟨⟨[], 0⟩, [], [], []⟩

theorem send_work_failure_captured_witness :
    sendRun c1Comps 1 c1World 0 0 =
      ((c1World.addEvent (.workStarted 0 0)).addEvent (.failureDelivered 0 0 7), none) :=
  send_work_failure_captured c1Comps 0 c1World 0 0 (ESBComponent.new c1Work true) c1Work 7
    (c1World.addEvent (.workStarted 0 0)) rfl rfl rfl rfl

theorem getChannel_setChannel (ch ch' : String) (ts : List Nat) :
    ∀ xs, getChannel (setChannel xs ch ts) ch' =
      if ch' = ch then (getChannel xs ch).map (fun _ => ts) else getChannel xs ch' := by
  intro xs
  induction xs with
  | nil => by_cases hba : ch' = ch <;> simp [setChannel, getChannel, hba]
  | cons hd tl ih =>
    obtain ⟨c, g⟩ := hd
    by_cases hca : c = ch <;> by_cases hba : ch' = ch
    · subst hca; subst hba
      simp [setChannel, getChannel]
    · subst hca
      have hcb : ¬ (c = ch') := fun hh => hba hh.symm
      simp [setChannel, getChannel, hcb, hba, ih]
    · subst hba
      have hcb : ¬ (c = ch') := hca
      simp [setChannel, getChannel, hca, hcb, ih]
    · simp [setChannel, getChannel, hca, hba, ih]

theorem getChannel_append (xs ys : List (String × List Nat)) (ch : String) :
    getChannel (xs ++ ys) ch =
      match getChannel xs ch with
      | some ts => some ts
      | none => getChannel ys ch := by
  induction xs with
  | nil => simp [getChannel]
  | cons hd tl ih =>
    obtain ⟨c, g⟩ := hd
    by_cases hc : c = ch <;> simp [getChannel, hc, ih]

def c3Fwd : WorkFn := fun nextF _ m w => nextF w none m

def c3Comps : List Component :=
  [(((ESBComponent.new c3Fwd true).connect none 1).connect none 1),
    ESBResultComponent.new true]

def c3World : World := ⟨⟨[], 0⟩, [], [], []⟩

/-- C3: `connect` and `next` without a channel name resolve to the same
default channel; `connect` appends the target to the channel's ordered list,
creating the list if absent, with no deduplication; `next` on a channel with
no registered list is a silent no-op, and on a registered list it dispatches
`target.send(message)` to every target in registration order with the same
message reference (`sendSeqWith` over the stored list).  The final conjunct
runs a concrete graph in which the same recording target is connected twice
under the default channel: it is invoked twice, in order, with the same
message. -/
theorem connect_next_channel_semantics :
    (∀ comp t, Component.connect comp none t = Component.connect comp (some defaultChannel) t) ∧
    (∀ comps fuel w c m,
      nextRun comps fuel w c none m = nextRun comps fuel w c (some defaultChannel) m) ∧
    (∀ comp ch t, getChannel (Component.connect comp (some ch) t).channels ch =
      some (((getChannel comp.channels ch).getD []) ++ [t])) ∧
    (∀ comps fuel w c m comp ch, comps[c]? = some comp →
      getChannel comp.channels ch = none →
      nextRun comps fuel w c (some ch) m = (w.addEvent (.nextCalled c ch m), none)) ∧
    (∀ comps fuel w c m comp ch ts, comps[c]? = some comp →
      getChannel comp.channels ch = some ts →
      nextRun comps fuel w c (some ch) m =
        sendSeqWith (fun w' c' m' => sendRun comps fuel w' c' m')
          (w.addEvent (.nextCalled c ch m)) ts m) ∧
    (∀ (sendF : SendFn) w t ts m, sendSeqWith sendF w (t :: ts) m =
      match sendF w t m with
      | (w', none) => sendSeqWith sendF w' ts m
      | r => r) ∧
    (sendRun c3Comps 2 c3World 0 0 =
      (⟨⟨[], 0⟩, [], [],
        [.resultDelivered 1 0, .workStarted 1 0, .resultDelivered 1 0, .workStarted 1 0,
          .nextCalled 0 defaultChannel 0, .workStarted 0 0]⟩, none)) := by
  refine ⟨fun comp t => rfl, fun comps fuel w c m => rfl, ?_, ?_, ?_, ?_, ?_⟩
  · intro comp ch t
    unfold Component.connect
    cases hg : getChannel comp.channels ch with
    | none =>
      simp only [Option.getD_some, hg]
      rw [getChannel_append, hg]
      simp [getChannel]
    | some ts =>
      simp only [Option.getD_some, hg]
      rw [getChannel_setChannel, if_pos rfl, hg]
      simp
  · intro comps fuel w c m comp ch hc hg
    unfold nextRun nextWith
    rw [hc]
    simp only [Option.getD_some, hg]
  · intro comps fuel w c m comp ch ts hc hg
    unfold nextRun nextWith
    rw [hc]
    simp only [Option.getD_some, hg]
  · intro sendF w t ts m
    rfl
  · rfl

theorem connect_next_channel_semantics_witness :
    nextRun [ESBResultComponent.new true] 1 c3World 0 (some ("nosuch")) 0 =
      (c3World.addEvent (.nextCalled 0 ("nosuch") 0), none) :=
  connect_next_channel_semantics.2.2.2.1 [ESBResultComponent.new true] 1 c3World 0 0
    (ESBResultComponent.new true) ("nosuch") rfl rfl

def c5Msg : ESBMessage :=
  { payload := .prim 5,
    context := ⟨0, ("id0"), ⟨("u"), ("s"), ("cc")⟩⟩,
    originalPayload := .prim 5,
    vars := [(("v"), .prim 0)] }

def c5Comps : List Component := [ESBVarGetComponent.new ("v")]

def c5World : World := ⟨⟨[], 0⟩, [c5Msg], [], []⟩

/-- C5 counterexample: a Variable-get node whose variable *exists* but is
falsy (`vars["v"] = 0`, stored e.g. by a Variable-set over a `0` payload)
leaves the payload untouched, because the source tests
`if (message.vars[name])` — truthiness, not existence.  The claim demands
that the payload be overwritten with a deep copy of the existing entry
(which would make it `prim 0`), but the message comes out unchanged with
payload `prim 5`. -/
theorem varGet_existing_falsy_var_skipped :
    lookupField c5Msg.vars ("v") = some (.prim 0) ∧
    c5Msg.payload = .prim 5 ∧
    (sendRun c5Comps 2 c5World 0 0).1.msgs = [c5Msg] ∧
    (sendRun c5Comps 2 c5World 0 0).2 = none := by
  refine ⟨rfl, rfl, ?_, ?_⟩ <;> rfl

/-- C5 (amended): for a Variable-get node with variable name `n`: if
`vars[n]` exists *and is truthy*, the payload is overwritten with a deep
copy of it; if `vars[n]` is absent *or falsy*, the payload (indeed the whole
message list and heap) is left untouched; in every case the node calls
`next` exactly once (exactly one `nextCalled` event) and completes without
error. -/
theorem varGet_truthy_semantics (comps : List Component) (fuel : Nat) (w : World)
    (c m : Nat) (comp : Component) (n : String) (msg : ESBMessage)
    (hc : comps[c]? = some comp) (hk : comp.kind = .varGet n)
    (hch : comp.channels = []) (hm : w.msgs[m]? = some msg) :
    (∀ v, lookupField msg.vars n = some v → truthy v = true →
      sendRun comps (fuel+1) w c m =
        (⟨(cloneVal fuel w.heap v).1,
          w.msgs.set m { msg with payload := (cloneVal fuel w.heap v).2 },
          w.queue,
          .nextCalled c defaultChannel m :: .workStarted c m :: w.trace⟩, none)) ∧
    (∀ v, lookupField msg.vars n = some v → truthy v = false →
      sendRun comps (fuel+1) w c m =
        (⟨w.heap, w.msgs, w.queue,
          .nextCalled c defaultChannel m :: .workStarted c m :: w.trace⟩, none)) ∧
    (lookupField msg.vars n = none →
      sendRun comps (fuel+1) w c m =
        (⟨w.heap, w.msgs, w.queue,
          .nextCalled c defaultChannel m :: .workStarted c m :: w.trace⟩, none)) := by
  refine ⟨?_, ?_, ?_⟩
  · intro v hv htr
    rw [sendRun, hc]
    simp only [runFnWith, hk, varGetStep, World.addEvent, hm, hv, htr, if_pos, seqNext,
      nextWith, hc, hch, getChannel]
    rfl
  · intro v hv htr
    rw [sendRun, hc]
    simp only [runFnWith, hk, varGetStep, World.addEvent, hm, hv, htr, Bool.false_eq_true,
      if_false, seqNext, nextWith, hc, hch, getChannel]
    rfl
  · intro hv
    rw [sendRun, hc]
    simp only [runFnWith, hk, varGetStep, World.addEvent, hm, hv, seqNext,
      nextWith, hc, hch, getChannel]
    rfl

def c5wMsg : ESBMessage :=
  { payload := .prim 5,
    context := ⟨0, ("id0"), ⟨("u"), ("s"), ("cc")⟩⟩,
    originalPayload := .prim 5,
    vars := [(("v"), .prim 9)] }

def c5wWorld : World := ⟨⟨[], 0⟩, [c5wMsg], [], []⟩

theorem varGet_truthy_semantics_witness :
    sendRun c5Comps 2 c5wWorld 0 0 =
      (⟨⟨[], 0⟩, [{ c5wMsg with payload := .prim 9 }], [],
        [.nextCalled 0 defaultChannel 0, .workStarted 0 0]⟩, none) :=
  (varGet_truthy_semantics c5Comps 1 c5wWorld 0 0 (ESBVarGetComponent.new ("v")) ("v") c5wMsg
    rfl rfl rfl rfl).1 (.prim 9) rfl rfl

/-- C6: a Merge (Combine) node with variable name `n`, on a message whose
payload is an object and whose `vars[n]` is an (object-valued) entry,
shallow-merges `vars[n]` onto the payload in place — the merged field list is
`assignFields payloadFields varsFields` — then calls `next` exactly once with
the (mutated) message; on key collision the `vars` fields take precedence
(`lookupField` of the merged fields is the `vars` entry's field when present,
the payload's otherwise, for a source object without duplicate keys). -/
theorem combine_shallow_merge_semantics (comps : List Component) (fuel : Nat) (w : World)
    (c m : Nat) (comp : Component) (n : String) (msg : ESBMessage)
    (p va : Nat) (pf vf : Fields)
    (hc : comps[c]? = some comp) (hk : comp.kind = .combine n)
    (hch : comp.channels = []) (hm : w.msgs[m]? = some msg)
    (hp : msg.payload = .ref p) (hpl : w.heap.lookup p = some pf)
    (hv : lookupField msg.vars n = some (.ref va)) (hvl : w.heap.lookup va = some vf)
    (hnd : (vf.map Prod.fst).Nodup) :
    sendRun comps (fuel+1) w c m =
      (⟨w.heap.update p (assignFields pf vf), w.msgs, w.queue,
        .nextCalled c defaultChannel m :: .workStarted c m :: w.trace⟩, none) ∧
    (∀ k, lookupField (assignFields pf vf) k = orElseO (lookupField vf k) (lookupField pf k)) := by
  constructor
  · rw [sendRun, hc]
    simp only [runFnWith, hk, combineStep, World.addEvent, hm, hv, hp, hpl, hvl, truthy,
      if_pos, srcFields, Option.getD_some, seqNext, nextWith, hc, hch, getChannel]
    rfl
  · exact fun k => lookupField_assignFields hnd pf k

def c6Heap : Heap :=
  ⟨[(0, [(("x"), .prim 2), (("y"), .prim 3)]), (1, [(("x"), .prim 1)])], 2⟩

def c6Msg : ESBMessage :=
  { payload := .ref 0,
    context := ⟨0, ("id0"), ⟨("u"), ("s"), ("cc")⟩⟩,
    originalPayload := .prim 0,
    vars := [(("v"), .ref 1)] }

def c6Comps : List Component := [ESBCombineComponent.new ("v")]

def c6World : World := ⟨c6Heap, [c6Msg], [], []⟩

theorem combine_shallow_merge_semantics_witness :
    sendRun c6Comps 1 c6World 0 0 =
      (⟨c6Heap.update 0 (assignFields [(("x"), .prim 2), (("y"), .prim 3)] [(("x"), .prim 1)]),
        [c6Msg], [],
        [.nextCalled 0 defaultChannel 0, .workStarted 0 0]⟩, none) ∧
    assignFields [(("x"), .prim 2), (("y"), .prim 3)] [(("x"), .prim 1)] =
      [(("x"), .prim 1), (("y"), .prim 3)] :=
  ⟨(combine_shallow_merge_semantics c6Comps 0 c6World 0 0 (ESBCombineComponent.new ("v"))
      ("v") c6Msg 0 1 [(("x"), .prim 2), (("y"), .prim 3)] [(("x"), .prim 1)]
      rfl rfl rfl rfl rfl rfl rfl rfl (by decide)).1,
    by decide⟩

def c2Heap : Heap :=
  ⟨[(0, [(("x"), .prim 2), (("y"), .prim 3)]),
    (1, [(("x"), .ref 2)]),
    (2, [(("z"), .prim 9)])], 3⟩

def c2Msg : ESBMessage :=
  { payload := .ref 0,
    context := ⟨0, ("id0"), ⟨("u"), ("s"), ("cc")⟩⟩,
    originalPayload := .prim 0,
    vars := [(("v"), .ref 1)] }

def c2Comps : List Component := [ESBCombineComponent.new ("v")]

def c2World : World := ⟨c2Heap, [c2Msg], [], []⟩

/-- C2 counterexample: after a Merge node combines `vars["v"]` (an object
`{x: <ref 2>}`) into the payload, the nested object at address `2` is
reachable both from the `vars["v"]` entry (`ref 1`) and from the payload
(`ref 0`): `Object.assign` copies references shallowly, so the claimed
"no object reachable from a vars entry is ever aliased with an object
reachable from the payload" fails after Merge. -/
theorem combine_aliases_vars_into_payload :
    ((sendRun c2Comps 2 c2World 0 0).1.msgs[0]?).map (fun ms => ms.payload) = some (.ref 0) ∧
    ((sendRun c2Comps 2 c2World 0 0).1.msgs[0]?).map (fun ms => lookupField ms.vars ("v")) =
      some (some (.ref 1)) ∧
    Reaches (sendRun c2Comps 2 c2World 0 0).1.heap (.ref 0) 2 ∧
    Reaches (sendRun c2Comps 2 c2World 0 0).1.heap (.ref 1) 2 := by
  refine ⟨rfl, rfl, ?_, ?_⟩
  · exact Reaches.step 0 [(("x"), .ref 2), (("y"), .prim 3)] ("x") (.ref 2) 2 (by rfl)
      (List.mem_cons_self _ _) (Reaches.here 2)
  · exact Reaches.step 1 [(("x"), .ref 2)] ("x") (.ref 2) 2 (by rfl)
      (List.mem_cons_self _ _) (Reaches.here 2)

/-- C2 (amended): the value a Variable-set node stores into `vars[n]` is an
independent deep copy of the payload *at store time*: it reads back
structurally equal to the payload, and no heap object reachable from the
stored entry is aliased with an object reachable from the payload.  (After a
Merge, by contrast, objects nested in the vars entry become reachable from
the payload — see the counterexample.) -/
theorem varSet_stores_unaliased_deep_copy (fuel : Nat) (w : World) (n : String) (m : Nat)
    (msg : ESBMessage) (hm : w.msgs[m]? = some msg) (hw : w.heap.WFb = true)
    (hp : msg.payload.addrOkb w.heap.next = true) :
    (varSetStep fuel w n m).2 = none ∧
    (varSetStep fuel w n m).1.heap = (cloneVal fuel w.heap msg.payload).1 ∧
    (varSetStep fuel w n m).1.msgs =
      w.msgs.set m
        { msg with vars := setField msg.vars n (cloneVal fuel w.heap msg.payload).2 } ∧
    (∀ a, Reaches (varSetStep fuel w n m).1.heap (cloneVal fuel w.heap msg.payload).2 a →
      ¬ Reaches (varSetStep fuel w n m).1.heap msg.payload a) ∧
    ((readTree? fuel w.heap msg.payload).isSome = true →
      readTree? fuel (varSetStep fuel w n m).1.heap (cloneVal fuel w.heap msg.payload).2 =
        readTree? fuel w.heap msg.payload) := by
  obtain ⟨hext, hwf', hrange, hfresh⟩ := clone_spec fuel w.heap msg.payload hw
  have hheap : (varSetStep fuel w n m).1.heap = (cloneVal fuel w.heap msg.payload).1 := by
    simp only [varSetStep, hm]
  refine ⟨by simp only [varSetStep, hm], hheap, by simp only [varSetStep, hm], ?_, ?_⟩
  · intro a hra hrp
    rw [hheap] at hra hrp
    have hge : w.heap.next ≤ a := by
      refine reaches_ge hfresh _ a ?_ hra
      intro b hb
      rw [hb] at hrange
      simp only [JSVal.inRangeb, Bool.and_eq_true, decide_eq_true_eq] at hrange
      exact hrange.1
    have hlt : a < w.heap.next := reaches_lt hw hext msg.payload a hp hrp
    omega
  · intro hro
    rw [hheap]
    exact clone_read fuel w.heap msg.payload _ hw (Ext.refl _) hro

def c2wHeap : Heap := ⟨[(0, [(("x"), .prim 1)])], 1⟩

def c2wMsg : ESBMessage :=
  { payload := .ref 0,
    context := ⟨0, ("id0"), ⟨("u"), ("s"), ("cc")⟩⟩,
    originalPayload := .prim 0,
    vars := [] }

def c2wWorld : World := ⟨c2wHeap, [c2wMsg], [], []⟩

theorem varSet_stores_unaliased_deep_copy_witness :
    (∀ a, Reaches (varSetStep 2 c2wWorld ("snap") 0).1.heap
        (cloneVal 2 c2wHeap (.ref 0)).2 a →
      ¬ Reaches (varSetStep 2 c2wWorld ("snap") 0).1.heap (.ref 0) a) ∧
    readTree? 2 (varSetStep 2 c2wWorld ("snap") 0).1.heap (cloneVal 2 c2wHeap (.ref 0)).2 =
      readTree? 2 c2wHeap (.ref 0) :=
  ⟨(varSet_stores_unaliased_deep_copy 2 c2wWorld ("snap") 0 c2wMsg rfl (by decide)
      (by decide)).2.2.2.1,
    (varSet_stores_unaliased_deep_copy 2 c2wWorld ("snap") 0 c2wMsg rfl (by decide)
      (by decide)).2.2.2.2 (by decide)⟩

/-- C4: envelope construction deep-snapshots the payload into
`originalPayload` (a clone of the payload value), and that snapshot is
unaffected by any later mutation of the payload: mutating any heap object
reachable from the payload leaves the observation of `originalPayload`
unchanged, and the snapshot observes structurally equal to the payload at
construction time. -/
theorem originalPayload_unaffected (fuel : Nat) (h : Heap) (p : JSVal)
    (cu cs cc : String) (now : Nat) (uuid : String)
    (hw : h.WFb = true) (hp : p.addrOkb h.next = true) :
    (createMessage fuel h p cu cs cc now uuid).1 = (cloneVal fuel h p).1 ∧
    (createMessage fuel h p cu cs cc now uuid).2.payload = p ∧
    (createMessage fuel h p cu cs cc now uuid).2.originalPayload = (cloneVal fuel h p).2 ∧
    (∀ a fs', Reaches (cloneVal fuel h p).1 p a →
      readTree? fuel ((cloneVal fuel h p).1.update a fs') (cloneVal fuel h p).2 =
        readTree? fuel (cloneVal fuel h p).1 (cloneVal fuel h p).2) ∧
    ((readTree? fuel h p).isSome = true →
      readTree? fuel (cloneVal fuel h p).1 (cloneVal fuel h p).2 = readTree? fuel h p) := by
  obtain ⟨hext, hwf', hrange, hfresh⟩ := clone_spec fuel h p hw
  refine ⟨rfl, rfl, rfl, ?_, ?_⟩
  · intro a fs' hra
    have hlt : a < h.next := reaches_lt hw hext p a hp hra
    have hnr : ¬ Reaches (cloneVal fuel h p).1 (cloneVal fuel h p).2 a := by
      intro hrc
      have hge : h.next ≤ a := by
        refine reaches_ge hfresh _ a ?_ hrc
        intro b hb
        rw [hb] at hrange
        simp only [JSVal.inRangeb, Bool.and_eq_true, decide_eq_true_eq] at hrange
        exact hrange.1
      omega
    exact readTree?_update fuel _ hnr
  · intro hro
    exact clone_read fuel h p _ hw (Ext.refl _) hro

def c4Heap : Heap := ⟨[(0, [(("a"), .prim 1)])], 1⟩

theorem originalPayload_unaffected_witness :
    readTree? 2 ((cloneVal 2 c4Heap (.ref 0)).1.update 0 [(("a"), .prim 2)])
        (cloneVal 2 c4Heap (.ref 0)).2 =
      readTree? 2 (cloneVal 2 c4Heap (.ref 0)).1 (cloneVal 2 c4Heap (.ref 0)).2 ∧
    readTree? 2 (cloneVal 2 c4Heap (.ref 0)).1 (cloneVal 2 c4Heap (.ref 0)).2 =
      readTree? 2 c4Heap (.ref 0) :=
  ⟨(originalPayload_unaffected 2 c4Heap (.ref 0) ("u") ("s") ("cc") 0 ("id0")
      (by decide) (by decide)).2.2.2.1 0 [(("a"), .prim 2)] (Reaches.here 0),
    (originalPayload_unaffected 2 c4Heap (.ref 0) ("u") ("s") ("cc") 0 ("id0")
      (by decide) (by decide)).2.2.2.2 (by decide)⟩

theorem getElem?_some_lt {α : Type} {x : α} {l : List α} {i : Nat}
    (h : l[i]? = some x) : i < l.length := by
  by_contra hn
  rw [List.getElem?_eq_none (by omega)] at h
  exact absurd h (by simp)

theorem getElem?_set_self_of_lt {α : Type} (x : α) (l : List α) (i : Nat)
    (h : i < l.length) : (l.set i x)[i]? = some x :=
  List.getElem?_set_eq_of_lt x h

/-- C7: the Variable-set / Variable-get round trip.  Variable-set stores into
`vars[n]` a deep snapshot of the current payload (conclusions 1–2) that
observes structurally equal to the payload at set time (conclusion 3);
mutating any heap object reachable from the payload afterwards does not
alter the snapshot's observed value (conclusion 4); a later Variable-get
overwrites the payload with a fresh deep copy of the snapshot
(conclusion 5) which observes structurally equal to the set-time payload
(conclusion 6) but is a different object from both the stored snapshot and
the original payload object (conclusion 7). -/
theorem var_roundtrip (fuel : Nat) (w : World) (n : String) (m : Nat) (msg : ESBMessage)
    (p q : Nat) (fsq : Fields) (cv : JSVal) (msg1 : ESBMessage) (w2 : World)
    (hm : w.msgs[m]? = some msg) (hw : w.heap.WFb = true)
    (hp : msg.payload = .ref p) (hpo : p < w.heap.next)
    (hro : (readTree? fuel w.heap msg.payload).isSome = true)
    (hcv : cv = (cloneVal fuel w.heap msg.payload).2)
    (hmsg1 : msg1 = { msg with vars := setField msg.vars n cv })
    (hq : Reaches (cloneVal fuel w.heap msg.payload).1 msg.payload q)
    (hfsq : fieldsOkb (cloneVal fuel w.heap msg.payload).1.next fsq = true)
    (hw2 : w2 = { (varSetStep fuel w n m).1 with
      heap := (varSetStep fuel w n m).1.heap.update q fsq }) :
    varSetStep fuel w n m =
      (⟨(cloneVal fuel w.heap msg.payload).1, w.msgs.set m msg1, w.queue, w.trace⟩, none) ∧
    lookupField msg1.vars n = some cv ∧
    readTree? fuel (cloneVal fuel w.heap msg.payload).1 cv =
      readTree? fuel w.heap msg.payload ∧
    readTree? fuel w2.heap cv = readTree? fuel w.heap msg.payload ∧
    varGetStep fuel w2 n m =
      ({ w2 with
          heap := (cloneVal fuel w2.heap cv).1,
          msgs := w2.msgs.set m { msg1 with payload := (cloneVal fuel w2.heap cv).2 } },
        none) ∧
    readTree? fuel (cloneVal fuel w2.heap cv).1 (cloneVal fuel w2.heap cv).2 =
      readTree? fuel w.heap msg.payload ∧
    (∃ r s, (cloneVal fuel w2.heap cv).2 = .ref r ∧ cv = .ref s ∧ r ≠ s ∧ r ≠ p) := by
  cases fuel with
  | zero =>
    rw [hp] at hro
    simp [readTree?] at hro
  | succ f =>
    have hro' := hro
    rw [hp] at hro'
    cases hlp : w.heap.lookup p with
    | none =>
      rw [readTree?, hlp] at hro'
      simp at hro'
    | some pfs =>
      obtain ⟨hext, hwf1, hrange, hfresh⟩ := clone_spec (f+1) w.heap msg.payload hw
      have hshape : cloneVal (f+1) w.heap msg.payload =
          (⟨((cloneFieldsWith (cloneVal f) w.heap pfs).1.next,
              (cloneFieldsWith (cloneVal f) w.heap pfs).2) ::
              (cloneFieldsWith (cloneVal f) w.heap pfs).1.objs,
            (cloneFieldsWith (cloneVal f) w.heap pfs).1.next + 1⟩,
            .ref (cloneFieldsWith (cloneVal f) w.heap pfs).1.next) := by
        rw [hp]
        simp [cloneVal, hlp]
      set B := (cloneFieldsWith (cloneVal f) w.heap pfs).1 with hB
      set Bfs := (cloneFieldsWith (cloneVal f) w.heap pfs).2 with hBfs
      have hcvs : cv = .ref B.next := by rw [hcv, hshape]
      have hC1 : (cloneVal (f+1) w.heap msg.payload).1 =
          ⟨(B.next, Bfs) :: B.objs, B.next + 1⟩ := by rw [hshape]
      have hrange' : w.heap.next ≤ B.next := by
        rw [hshape] at hrange
        simp only [JSVal.inRangeb, Bool.and_eq_true, decide_eq_true_eq] at hrange
        exact hrange.1
      have hstep1 : varSetStep (f+1) w n m =
          (⟨(cloneVal (f+1) w.heap msg.payload).1, w.msgs.set m msg1, w.queue, w.trace⟩,
            none) := by
        rw [hmsg1, hcv]
        simp only [varSetStep, hm]
      have hlv2 : lookupField msg1.vars n = some cv := by
        rw [hmsg1]
        show lookupField (setField msg.vars n cv) n = some cv
        rw [lookupField_setField, if_pos rfl]
      have hc3 : readTree? (f+1) (cloneVal (f+1) w.heap msg.payload).1 cv =
          readTree? (f+1) w.heap msg.payload := by
        rw [hcv]
        exact clone_read (f+1) w.heap msg.payload _ hw (Ext.refl _) hro
      have hqlt : q < w.heap.next := by
        refine reaches_lt hw hext msg.payload q ?_ hq
        rw [hp]
        simpa [JSVal.addrOkb] using hpo
      have hnr : ¬ Reaches (cloneVal (f+1) w.heap msg.payload).1 cv q := by
        intro hr
        have hge : w.heap.next ≤ q := by
          refine reaches_ge hfresh cv q ?_ hr
          intro b hb
          rw [hcvs] at hb
          injection hb with hbb
          omega
        omega
      have hw2heap : w2.heap = (cloneVal (f+1) w.heap msg.payload).1.update q fsq := by
        rw [hw2, hstep1]
      have hc4 : readTree? (f+1) w2.heap cv = readTree? (f+1) w.heap msg.payload := by
        rw [hw2heap, readTree?_update (f+1) cv hnr]
        exact hc3
      have hmlen : m < w.msgs.length := getElem?_some_lt hm
      have hm2 : w2.msgs[m]? = some msg1 := by
        rw [hw2, hstep1]
        exact getElem?_set_self_of_lt msg1 w.msgs m hmlen
      have hwf2 : w2.heap.WFb = true := by
        rw [hw2heap]
        exact WFb_update hwf1 hfsq
      have hlks : w2.heap.lookup B.next = some Bfs := by
        rw [hw2heap, lookup_update_ne (by omega : B.next ≠ q), hC1]
        change lookupObjs _ _ = _
        rw [lookupObjs, if_pos rfl]
      have htr : truthy cv = true := by rw [hcvs]; rfl
      have hstep5 : varGetStep (f+1) w2 n m =
          ({ w2 with
              heap := (cloneVal (f+1) w2.heap cv).1,
              msgs := w2.msgs.set m { msg1 with payload := (cloneVal (f+1) w2.heap cv).2 } },
            none) := by
        simp only [varGetStep, hm2, hlv2, htr, if_pos]
      have hro2 : (readTree? (f+1) w2.heap cv).isSome = true := by
        rw [hc4]
        exact hro
      have hc6 : readTree? (f+1) (cloneVal (f+1) w2.heap cv).1 (cloneVal (f+1) w2.heap cv).2 =
          readTree? (f+1) w.heap msg.payload := by
        rw [clone_read (f+1) w2.heap cv _ hwf2 (Ext.refl _) hro2, hc4]
      obtain ⟨hext2, hwf2', hrange2, hfresh2⟩ := clone_spec (f+1) w2.heap cv hwf2
      have hshape2 : cloneVal (f+1) w2.heap cv =
          (⟨((cloneFieldsWith (cloneVal f) w2.heap Bfs).1.next,
              (cloneFieldsWith (cloneVal f) w2.heap Bfs).2) ::
              (cloneFieldsWith (cloneVal f) w2.heap Bfs).1.objs,
            (cloneFieldsWith (cloneVal f) w2.heap Bfs).1.next + 1⟩,
            .ref (cloneFieldsWith (cloneVal f) w2.heap Bfs).1.next) := by
        rw [hcvs]
        simp [cloneVal, hlks]
      have hr2 : w2.heap.next ≤ (cloneFieldsWith (cloneVal f) w2.heap Bfs).1.next := by
        rw [hshape2] at hrange2
        simp only [JSVal.inRangeb, Bool.and_eq_true, decide_eq_true_eq] at hrange2
        exact hrange2.1
      have hw2next : w2.heap.next = B.next + 1 := by
        rw [hw2heap, update_next, hC1]
      refine ⟨hstep1, hlv2, hc3, hc4, hstep5, hc6,
        (cloneFieldsWith (cloneVal f) w2.heap Bfs).1.next, B.next,
        by rw [hshape2], hcvs, by omega, by omega⟩

def c7Heap : Heap := ⟨[(0, [(("x"), .prim 1)])], 1⟩

def c7Msg : ESBMessage :=
  { payload := .ref 0,
    context := ⟨0, ("id0"), ⟨("u"), ("s"), ("cc")⟩⟩,
    originalPayload := .prim 0,
    vars := [] }

def c7World : World := ⟨c7Heap, [c7Msg], [], []⟩

def c7W2 : World :=
  { (varSetStep 2 c7World ("snap") 0).1 with
      heap := (varSetStep 2 c7World ("snap") 0).1.heap.update 0 [(("x"), .prim 2)] }

theorem var_roundtrip_witness :
    readTree? 2 c7W2.heap (cloneVal 2 c7World.heap c7Msg.payload).2 =
      readTree? 2 c7World.heap c7Msg.payload ∧
    readTree? 2 (cloneVal 2 c7W2.heap (cloneVal 2 c7World.heap c7Msg.payload).2).1
        (cloneVal 2 c7W2.heap (cloneVal 2 c7World.heap c7Msg.payload).2).2 =
      readTree? 2 c7World.heap c7Msg.payload ∧
    (∃ r s, (cloneVal 2 c7W2.heap (cloneVal 2 c7World.heap c7Msg.payload).2).2 = .ref r ∧
      (cloneVal 2 c7World.heap c7Msg.payload).2 = .ref s ∧ r ≠ s ∧ r ≠ 0) :=
  have T := var_roundtrip 2 c7World ("snap") 0 c7Msg 0 0 [(("x"), .prim 2)]
    (cloneVal 2 c7World.heap c7Msg.payload).2
    { c7Msg with
        vars := setField c7Msg.vars ("snap") (cloneVal 2 c7World.heap c7Msg.payload).2 }
    c7W2 rfl (by decide) rfl (by decide) (by decide) rfl rfl (Reaches.here 0) (by decide) rfl
  ⟨T.2.2.2.1, T.2.2.2.2.2.1, T.2.2.2.2.2.2⟩
